import Mathlib

/-!
Verification of the script-call parser from `src/lib.rs`.

The parser recognises a "call": an alphanumeric identifier followed by a
flat argument list whose separators are the interchangeable characters
`,`, `(` and `)`.  Strings are modelled as `List Char`; a parser of
output type `α` becomes a function `List Char → Option (List Char × α)`
returning `some (remaining, value)` on success and `none` on failure,
mirroring nom's `IResult` with the `complete` combinators used by the
source.
-/

namespace VVVVVV

/-- Test for the three separator characters `,`, `(`, `)`. -/
def isSepChar (c : Char) : Bool :=
  c = ',' || c = '(' || c = ')'

/-- The characters matched by nom's `space0`: space and horizontal tab. -/
def isNomSpace (c : Char) : Bool :=
  c = ' ' || c = '\t'

/-- The Unicode White_Space property, the set trimmed by Rust's `str::trim`
(via `char::is_whitespace`). -/
def isRustWhitespace (c : Char) : Bool :=
  let n := c.toNat
  n = 0x20 || n = 0x09 || n = 0x0A || n = 0x0B || n = 0x0C || n = 0x0D ||
  n = 0x85 || n = 0xA0 || n = 0x1680 || (0x2000 ≤ n && n ≤ 0x200A) ||
  n = 0x2028 || n = 0x2029 || n = 0x202F || n = 0x205F || n = 0x3000

/-- Rust's `str::trim`: strip leading and trailing whitespace characters. -/
def trim (s : List Char) : List Char :=
  ((s.dropWhile isRustWhitespace).reverse.dropWhile isRustWhitespace).reverse

/-- `fn sep`: `alt((tag(","), tag("("), tag(")")))` — consume exactly one
separator character and return it. -/
def sep : List Char → Option (List Char × List Char)
  | [] => none
  | c :: rest =>
    if c = ',' then some (rest, [c])
    else if c = '(' then some (rest, [c])
    else if c = ')' then some (rest, [c])
    else none

/-- `fn sep_spaced`: `delimited(space0, sep, space0)` — a separator with
optional surrounding spaces/tabs discarded. -/
def sep_spaced (i : List Char) : Option (List Char × List Char) :=
  match sep (i.dropWhile isNomSpace) with
  | none => none
  | some (i2, o) => some (i2.dropWhile isNomSpace, o)

/-- `fn argument`: `is_not(",()")` — the maximal non-empty run of
non-separator characters; fails when that run is empty. -/
def argument (i : List Char) : Option (List Char × List Char) :=
  match i.takeWhile (fun c => !isSepChar c) with
  | [] => none
  | t => some (i.dropWhile (fun c => !isSepChar c), t)

/-- `fn argument_spaced`: `map(argument, str::trim)`. -/
def argument_spaced (i : List Char) : Option (List Char × List Char) :=
  match argument i with
  | none => none
  | some (r, o) => some (r, trim o)

/-- `fn argument_maybe`: `map(opt(argument_spaced), Option::unwrap_or_default)`
— never fails, yielding the empty string when `argument_spaced` fails. -/
def argument_maybe (i : List Char) : Option (List Char × List Char) :=
  match argument_spaced i with
  | none => some (i, [])
  | some r => some r

/-- `fn sep_argument`: `preceded(sep_spaced, argument_maybe)`. -/
def sep_argument (i : List Char) : Option (List Char × List Char) :=
  match sep_spaced i with
  | none => none
  | some (i1, _) => argument_maybe i1

/-- One iteration layer of nom's `many0(sep_argument)`.  nom's `many0` loops,
returning the accumulated list when the inner parser fails and erroring out
if a successful inner application consumed no input (its infinite-loop
guard).  The `fuel` argument is pure bookkeeping making the loop a
structural recursion: `fuel` larger than the input length is never
exhausted, because every successful `sep_argument` consumes at least one
character. -/
def argumentsGo : Nat → List Char → Option (List Char × List (List Char))
  | 0, _ => none
  | fuel + 1, i =>
    match sep_argument i with
    | none => some (i, [])
    | some (i1, o) =>
      if i1.length = i.length then none
      else
        match argumentsGo fuel i1 with
        | none => none
        | some (i2, os) => some (i2, o :: os)

/-- `fn arguments`: `many0(sep_argument)`. -/
def arguments (i : List Char) : Option (List Char × List (List Char)) :=
  argumentsGo (i.length + 1) i

/-- `fn call_name`: `alphanumeric1` — the maximal non-empty run of ASCII
alphanumeric characters; fails when that run is empty. -/
def call_name (i : List Char) : Option (List Char × List Char) :=
  match i.takeWhile Char.isAlphanum with
  | [] => none
  | t => some (i.dropWhile Char.isAlphanum, t)

/-- `struct RawCall`: the parsed call, a name plus its ordered argument
list. -/
structure RawCall where
  name : List Char
  args : List (List Char)
deriving DecidableEq

/-- `fn call`: `map(tuple((call_name, arguments)), ...)` — a call name
followed by an argument list, packaged as a `RawCall`. -/
def call (i : List Char) : Option (List Char × RawCall) :=
  match call_name i with
  | none => none
  | some (i1, name) =>
    match arguments i1 with
    | none => none
    | some (i2, args) => some (i2, { name := name, args := args })

example : sep ", ".data = some (" ".data, ",".data) := by decide
example : sep_spaced " , ".data = some ("".data, ",".data) := by decide
example : argument "  hi  ,".data = some (",".data, "  hi  ".data) := by decide
example : argument_spaced "  hi  ,".data = some (",".data, "hi".data) := by decide
example : argument_maybe "".data = some ("".data, "".data) := by decide
example : sep_argument ")  hi  ,".data = some (",".data, "hi".data) := by decide
example : arguments ")  hi  ,  hi  (  hi  )".data =
    some ("".data, ["hi".data, "hi".data, "hi".data, "".data]) := by decide
example : call_name "asdfasdf2(".data = some ("(".data, "asdfasdf2".data) := by decide
example : call "say(2)".data =
    some ("".data, { name := "say".data, args := ["2".data, "".data] }) := by decide
example : call "endtext".data =
    some ("".data, { name := "endtext".data, args := [] }) := by decide
example : call "createcrewman,0,0, red,0,followplayer".data =
    some ("".data,
      { name := "createcrewman".data,
        args := ["0".data, "0".data, "red".data, "0".data, "followplayer".data] }) := by
  decide

theorem takeWhile_append_of_all {p : Char → Bool} {s t : List Char}
    (h : ∀ c ∈ s, p c = true) :
    (s ++ t).takeWhile p = s ++ t.takeWhile p := by
  induction s with
  | nil => simp
  | cons a s ih =>
    have ha : p a = true := h a (by simp)
    simp [List.takeWhile_cons, ha]
    exact ih fun c hc => h c (by simp [hc])

theorem dropWhile_append_of_all {p : Char → Bool} {s t : List Char}
    (h : ∀ c ∈ s, p c = true) :
    (s ++ t).dropWhile p = t.dropWhile p := by
  induction s with
  | nil => simp
  | cons a s ih =>
    have ha : p a = true := h a (by simp)
    simp [List.dropWhile_cons, ha]
    exact ih fun c hc => h c (by simp [hc])

theorem countP_sep_takeWhile_space (l : List Char) :
    (l.takeWhile isNomSpace).countP isSepChar = 0 := by
  rw [List.countP_eq_zero]
  intro a ha
  have h := List.mem_takeWhile_imp ha
  simp [isNomSpace] at h
  rcases h with h | h <;> subst h <;> decide

theorem countP_sep_takeWhile_notsep (l : List Char) :
    (l.takeWhile fun c => !isSepChar c).countP isSepChar = 0 := by
  rw [List.countP_eq_zero]
  intro a ha
  have h := List.mem_takeWhile_imp ha
  simp at h
  simp [h]

theorem sep_eq_some {i r o : List Char} (h : sep i = some (r, o)) :
    ∃ c, i = c :: r ∧ isSepChar c = true ∧ o = [c] := by
  match i with
  | [] => simp [sep] at h
  | c :: rest =>
    refine ⟨c, ?_⟩
    simp only [sep] at h
    split_ifs at h with h1 h2 h3 <;>
      simp only [Option.some.injEq, Prod.mk.injEq] at h
    · exact ⟨by rw [h.1], by simp [isSepChar, h1], h.2.symm⟩
    · exact ⟨by rw [h.1], by simp [isSepChar, h2], h.2.symm⟩
    · exact ⟨by rw [h.1], by simp [isSepChar, h3], h.2.symm⟩

theorem sep_spaced_decomp {i r o : List Char} (h : sep_spaced i = some (r, o)) :
    ∃ pre, pre ++ r = i ∧ pre.countP isSepChar = 1 ∧ pre ≠ [] := by
  unfold sep_spaced at h
  cases hs : sep (i.dropWhile isNomSpace) with
  | none => rw [hs] at h; cases h
  | some p =>
    obtain ⟨i2, o2⟩ := p
    rw [hs] at h
    simp only [Option.some.injEq, Prod.mk.injEq] at h
    obtain ⟨hr, ho⟩ := h
    obtain ⟨c, hc1, hc2, hc3⟩ := sep_eq_some hs
    refine ⟨i.takeWhile isNomSpace ++ c :: i2.takeWhile isNomSpace, ?_, ?_, by simp⟩
    · rw [← hr]
      have hi : i.takeWhile isNomSpace ++ i.dropWhile isNomSpace = i :=
        List.takeWhile_append_dropWhile _ _
      have hi2 : i2.takeWhile isNomSpace ++ i2.dropWhile isNomSpace = i2 :=
        List.takeWhile_append_dropWhile _ _
      rw [List.append_assoc, List.cons_append, hi2, ← hc1, hi]
    · simp [List.countP_append, List.countP_cons, hc2,
        countP_sep_takeWhile_space]

theorem argument_maybe_decomp {i r o : List Char}
    (h : argument_maybe i = some (r, o)) :
    ∃ pre, pre ++ r = i ∧ pre.countP isSepChar = 0 := by
  unfold argument_maybe argument_spaced argument at h
  cases htw : i.takeWhile fun c => !isSepChar c with
  | nil =>
    rw [htw] at h
    simp only [Option.some.injEq, Prod.mk.injEq] at h
    exact ⟨[], by simp [h.1], by simp⟩
  | cons a t =>
    rw [htw] at h
    simp only [Option.some.injEq, Prod.mk.injEq] at h
    refine ⟨a :: t, ?_, ?_⟩
    · rw [← h.1, ← htw]
      exact List.takeWhile_append_dropWhile _ _
    · rw [← htw]
      exact countP_sep_takeWhile_notsep i

theorem argument_maybe_isSome (i : List Char) :
    ∃ r o, argument_maybe i = some (r, o) := by
  unfold argument_maybe
  cases h : argument_spaced i with
  | none => exact ⟨i, [], rfl⟩
  | some p => exact ⟨p.1, p.2, rfl⟩

theorem sep_argument_decomp {i r o : List Char}
    (h : sep_argument i = some (r, o)) :
    ∃ pre, pre ++ r = i ∧ pre.countP isSepChar = 1 ∧ pre ≠ [] := by
  unfold sep_argument at h
  cases hs : sep_spaced i with
  | none => rw [hs] at h; cases h
  | some p =>
    obtain ⟨i1, o1⟩ := p
    rw [hs] at h
    obtain ⟨pre1, hpre1, hcount1, hne1⟩ := sep_spaced_decomp hs
    obtain ⟨pre2, hpre2, hcount2⟩ := argument_maybe_decomp h
    refine ⟨pre1 ++ pre2, ?_, ?_, ?_⟩
    · rw [List.append_assoc, hpre2, hpre1]
    · simp [List.countP_append, hcount1, hcount2]
    · simp only [ne_eq, List.append_eq_nil]
      rintro ⟨h1, _⟩
      exact hne1 h1

theorem sep_argument_lt {i r o : List Char}
    (h : sep_argument i = some (r, o)) : r.length < i.length := by
  obtain ⟨pre, hpre, _, hne⟩ := sep_argument_decomp h
  have hlen := congrArg List.length hpre
  simp only [List.length_append] at hlen
  have hpos : 0 < pre.length := List.length_pos.mpr hne
  omega

theorem argumentsGo_spec :
    ∀ fuel i, i.length < fuel →
      ∃ r v, argumentsGo fuel i = some (r, v) ∧ sep_argument r = none ∧
        ∃ pre, pre ++ r = i ∧ v.length = pre.countP isSepChar := by
  intro fuel
  induction fuel with
  | zero => intro i h; omega
  | succ fuel ih =>
    intro i hfuel
    cases hsa : sep_argument i with
    | none =>
      exact ⟨i, [], by simp [argumentsGo, hsa], hsa, [], rfl, by simp⟩
    | some p =>
      obtain ⟨i1, o⟩ := p
      have hlt := sep_argument_lt hsa
      obtain ⟨r, v, hgo, hstop, pre2, hpre2, hlen⟩ :=
        ih i1 (by omega)
      obtain ⟨pre1, hpre1, hcount1, _⟩ := sep_argument_decomp hsa
      have hne : i1.length ≠ i.length := Nat.ne_of_lt hlt
      refine ⟨r, o :: v, ?_, hstop, pre1 ++ pre2, ?_, ?_⟩
      · simp [argumentsGo, hsa, hne, hgo]
      · rw [List.append_assoc, hpre2, hpre1]
      · simp [List.countP_append, hcount1, hlen]
        omega

theorem arguments_spec (i : List Char) :
    ∃ r v, arguments i = some (r, v) ∧ sep_argument r = none ∧
      ∃ pre, pre ++ r = i ∧ v.length = pre.countP isSepChar :=
  argumentsGo_spec (i.length + 1) i (by omega)

theorem takeWhile_eq_self_of_all {p : Char → Bool} {s : List Char}
    (h : ∀ c ∈ s, p c = true) : s.takeWhile p = s := by
  have h2 := takeWhile_append_of_all (t := []) h
  simpa using h2

theorem dropWhile_eq_nil_of_all {p : Char → Bool} {s : List Char}
    (h : ∀ c ∈ s, p c = true) : s.dropWhile p = [] := by
  have h2 := dropWhile_append_of_all (t := []) h
  simpa using h2

theorem argument_eq (i : List Char) :
    argument i =
      if (i.takeWhile fun c => !isSepChar c) = [] then none
      else some (i.dropWhile fun c => !isSepChar c,
        i.takeWhile fun c => !isSepChar c) := by
  cases h : i.takeWhile fun c => !isSepChar c with
  | nil => simp [argument, h]
  | cons a t => simp [argument, h]

theorem whitespace_not_sep {c : Char} (h : isRustWhitespace c = true) :
    (!isSepChar c) = true := by
  cases hc : isSepChar c with
  | false => simp
  | true =>
    exfalso
    simp only [isSepChar, Bool.or_eq_true, decide_eq_true_eq] at hc
    rcases hc with (h1 | h1) | h1 <;> subst h1 <;> exact absurd h (by decide)

/-- C1: parsing `say(2)` succeeds with no remaining input and yields the call
named `say` with arguments `["2", ""]` — the closing parenthesis is a
separator mandating a trailing (empty) argument slot. -/
theorem call_say2 :
    call "say(2)".data =
      some ([], { name := "say".data, args := ["2".data, "".data] }) := by
  decide

/-- C2 counterexample: the claim says `call_name` fails on both `""` and
`"2abc"`, but on `"2abc"` it succeeds (`alphanumeric1` accepts a leading
digit), so the conjunction is false. -/
theorem call_name_digit_claim_refuted :
    ¬ (call_name "".data = none ∧ call_name "2abc".data = none) := by
  decide

/-- C2 (amended): `call_name` fails on the empty input, and on `"2abc"` it
succeeds, consuming the whole input — the matcher itself permits a leading
digit. -/
theorem call_name_empty_fails_digit_succeeds :
    call_name "".data = none ∧
      call_name "2abc".data = some ([], "2abc".data) := by
  decide

/-- C3: `arguments` succeeds on every input, stopping at the first position
where `sep_argument` fails and leaving that input unconsumed; consequently
`call` succeeds exactly when `call_name` does. -/
theorem arguments_total_and_call_iff (i : List Char) :
    (∃ r v, arguments i = some (r, v) ∧ sep_argument r = none) ∧
    ((call i).isSome = true ↔ (call_name i).isSome = true) := by
  refine ⟨?_, ?_⟩
  · obtain ⟨r, v, h1, h2, _⟩ := arguments_spec i
    exact ⟨r, v, h1, h2⟩
  · cases hc : call_name i with
    | none => simp [call, hc]
    | some p =>
      obtain ⟨i1, nm⟩ := p
      obtain ⟨r, v, h1, _, _⟩ := arguments_spec i1
      simp [call, hc, h1]

/-- C4: whenever `call` succeeds, the length of the returned argument list
equals the number of separator characters in the portion of the input
consumed by the argument-list stage. -/
theorem call_args_length_eq_sep_count (i ri : List Char) (c : RawCall)
    (h : call i = some (ri, c)) :
    ∃ i1 pre, call_name i = some (i1, c.name) ∧
      arguments i1 = some (ri, c.args) ∧ pre ++ ri = i1 ∧
      c.args.length = pre.countP isSepChar := by
  unfold call at h
  cases hc : call_name i with
  | none =>
    rw [hc] at h
    exact Option.noConfusion h
  | some p =>
    obtain ⟨i1, nm⟩ := p
    rw [hc] at h
    dsimp only at h
    cases ha : arguments i1 with
    | none =>
      rw [ha] at h
      exact Option.noConfusion h
    | some q =>
      obtain ⟨i2, args⟩ := q
      rw [ha] at h
      dsimp only at h
      simp only [Option.some.injEq, Prod.mk.injEq] at h
      obtain ⟨hri, hcall⟩ := h
      subst hri
      subst hcall
      obtain ⟨r, v, hag, hstop, pre, hpre, hlen⟩ := arguments_spec i1
      rw [ha] at hag
      simp only [Option.some.injEq, Prod.mk.injEq] at hag
      obtain ⟨hr, hv⟩ := hag
      subst hr
      subst hv
      exact ⟨i1, pre, rfl, ha, hpre, hlen⟩

/-- Witness for C4 at the concrete input `say(2)`. -/
theorem call_args_length_eq_sep_count_witness :
    ∃ i1 pre, call_name "say(2)".data = some (i1, "say".data) ∧
      arguments i1 = some ([], ["2".data, "".data]) ∧ pre ++ [] = i1 ∧
      (["2".data, "".data] : List (List Char)).length =
        pre.countP isSepChar :=
  call_args_length_eq_sep_count "say(2)".data []
    { name := "say".data, args := ["2".data, "".data] } (by decide)

/-- C5 counterexample: the empty text satisfies the claim's conditions (no
separator characters, no surrounding blanks), yet `argument` applied to it
followed by a comma fails rather than matching the empty text. -/
theorem argument_claim_empty_refuted :
    ("".data.all fun c => !isSepChar c) = true ∧ trim "".data = "".data ∧
      argument ("".data ++ ",".data) = none := by
  decide

/-- C5 (amended): for all NON-EMPTY text with no separator characters and no
leading or trailing blanks, `argument` on the text followed by a comma
succeeds, matching the text and leaving the comma unconsumed. -/
theorem argument_append_comma (s : List Char) (hne : s ≠ [])
    (hsep : (s.all fun c => !isSepChar c) = true)
    (htrim : trim s = s) :
    argument (s ++ ",".data) = some (",".data, s) := by
  have hall : ∀ c ∈ s, (!isSepChar c) = true := by
    intro c hc
    exact List.all_eq_true.mp hsep c hc
  have h1 : (s ++ ",".data).takeWhile (fun c => !isSepChar c) = s := by
    rw [takeWhile_append_of_all hall]
    have : (",".data.takeWhile fun c => !isSepChar c) = [] := by decide
    rw [this, List.append_nil]
  have h2 : (s ++ ",".data).dropWhile (fun c => !isSepChar c) = ",".data := by
    rw [dropWhile_append_of_all hall]
    decide
  rw [argument_eq, h1, h2]
  cases s with
  | nil => exact absurd rfl hne
  | cons a t => simp

/-- Witness for C5 (amended) at the concrete text `hi`. -/
theorem argument_append_comma_witness :
    argument ("hi".data ++ ",".data) = some (",".data, "hi".data) :=
  argument_append_comma "hi".data (by decide) (by decide) (by decide)

/-- C6: `argument_spaced` fails exactly when `argument` fails, and on success
returns the same remaining input with the matched text trimmed under the
full Unicode whitespace notion. -/
theorem argument_spaced_refines_argument (i : List Char) :
    (argument_spaced i = none ↔ argument i = none) ∧
    ∀ r o, argument i = some (r, o) → argument_spaced i = some (r, trim o) := by
  refine ⟨?_, ?_⟩
  · cases h : argument i with
    | none => simp [argument_spaced, h]
    | some p =>
      obtain ⟨r, o⟩ := p
      simp [argument_spaced, h]
  · intro r o h
    simp [argument_spaced, h]

/-- Witness for C6 on an input whose argument text carries newlines, which
only the standard (non space-tab) whitespace notion trims away. -/
theorem argument_spaced_refines_argument_witness :
    argument_spaced "\n hi \n,".data = some (",".data, trim "\n hi \n".data) ∧
      trim "\n hi \n".data = "hi".data :=
  ⟨(argument_spaced_refines_argument "\n hi \n,".data).2
      ",".data "\n hi \n".data (by decide),
    by decide⟩

/-- C7: the argument list of `)  hi  ,  hi  (  hi  )` is
`["hi", "hi", "hi", ""]` — one entry per separator, trimmed, with a trailing
empty entry for the final closing parenthesis, and no input remains. -/
theorem arguments_hi_example :
    arguments ")  hi  ,  hi  (  hi  )".data =
      some ([], ["hi".data, "hi".data, "hi".data, "".data]) := by
  decide

/-- C8: a successful `call` returns a non-empty name of ASCII alphanumeric
characters that is a contiguous substring of the input. -/
theorem call_name_nonempty_alnum_substring (i ri : List Char) (c : RawCall)
    (h : call i = some (ri, c)) :
    c.name ≠ [] ∧ c.name.all Char.isAlphanum = true ∧
      ∃ pre post, pre ++ c.name ++ post = i := by
  unfold call at h
  cases hc : call_name i with
  | none =>
    rw [hc] at h
    exact Option.noConfusion h
  | some p =>
    obtain ⟨i1, nm⟩ := p
    rw [hc] at h
    dsimp only at h
    cases ha : arguments i1 with
    | none =>
      rw [ha] at h
      exact Option.noConfusion h
    | some q =>
      rw [ha] at h
      dsimp only at h
      simp only [Option.some.injEq, Prod.mk.injEq] at h
      obtain ⟨hri, hcall⟩ := h
      subst hcall
      unfold call_name at hc
      cases htw : i.takeWhile Char.isAlphanum with
      | nil =>
        rw [htw] at hc
        exact Option.noConfusion hc
      | cons a t =>
        rw [htw] at hc
        dsimp only at hc
        simp only [Option.some.injEq, Prod.mk.injEq] at hc
        obtain ⟨hi1, hnm⟩ := hc
        refine ⟨?_, ?_, [], i.dropWhile Char.isAlphanum, ?_⟩
        · show nm ≠ []
          rw [← hnm]
          simp
        · show nm.all Char.isAlphanum = true
          rw [← hnm]
          apply List.all_eq_true.mpr
          intro x hx
          exact List.mem_takeWhile_imp (htw ▸ hx)
        · show [] ++ nm ++ i.dropWhile Char.isAlphanum = i
          rw [List.nil_append, ← hnm, ← htw]
          exact List.takeWhile_append_dropWhile _ _

/-- Witness for C8 at the concrete input `say(2)`. -/
theorem call_name_nonempty_alnum_substring_witness :
    "say".data ≠ [] ∧ "say".data.all Char.isAlphanum = true ∧
      ∃ pre post, pre ++ "say".data ++ post = "say(2)".data :=
  call_name_nonempty_alnum_substring "say(2)".data []
    { name := "say".data, args := ["2".data, "".data] } (by decide)

/-- C9: every successful `sep_argument` step consumes at least one character,
so the argument-list repetition terminates (the `many0` loop never errors
out and the fuel bound of the embedding is never exhausted): `arguments`
returns a result on every input. -/
theorem parsers_terminate :
    (∀ i r o, sep_argument i = some (r, o) → r.length < i.length) ∧
    ∀ i, (arguments i).isSome = true := by
  refine ⟨fun i r o h => sep_argument_lt h, fun i => ?_⟩
  obtain ⟨r, v, h1, _⟩ := arguments_spec i
  simp [h1]

/-- Witness for C9 at the concrete input `,x`. -/
theorem parsers_terminate_witness :
    ([] : List Char).length < ",x".data.length :=
  parsers_terminate.1 ",x".data [] "x".data (by decide)

/-- C10: on any non-empty all-whitespace input, the argument matcher itself
succeeds (consuming the whole run) and `argument_spaced` returns the empty
string with nothing remaining — an empty argument can arise from the
success path of `argument`, not only from the `argument_maybe` default. -/
theorem argument_spaced_whitespace_only (i : List Char) (hne : i ≠ [])
    (hws : i.all isRustWhitespace = true) :
    argument i = some ([], i) ∧ argument_spaced i = some ([], []) := by
  have hall : ∀ c ∈ i, isRustWhitespace c = true := by
    intro c hc
    exact List.all_eq_true.mp hws c hc
  have hns : ∀ c ∈ i, (!isSepChar c) = true :=
    fun c hc => whitespace_not_sep (hall c hc)
  have htw : (i.takeWhile fun c => !isSepChar c) = i :=
    takeWhile_eq_self_of_all hns
  have hdw : (i.dropWhile fun c => !isSepChar c) = [] :=
    dropWhile_eq_nil_of_all hns
  have harg : argument i = some ([], i) := by
    cases i with
    | nil => exact absurd rfl hne
    | cons a t => simp [argument, htw, hdw]
  have htrim : trim i = [] := by
    have hdw2 : i.dropWhile isRustWhitespace = [] :=
      dropWhile_eq_nil_of_all hall
    simp [trim, hdw2]
  exact ⟨harg, by simp [argument_spaced, harg, htrim]⟩

/-- Witness for C10 at the concrete input of two spaces. -/
theorem argument_spaced_whitespace_only_witness :
    argument "  ".data = some ([], "  ".data) ∧
      argument_spaced "  ".data = some ([], []) :=
  argument_spaced_whitespace_only "  ".data (by decide) (by decide)

end VVVVVV
